import Mathlib

/-!
Verification of the `tbdiags` diagnostics-aggregation package.

The Go source is embedded shallowly:

* A Go slice of diagnostics (`Diagnostics`) is `Option (List Diagnostic)`:
  `none` is the nil slice, `some l` a non-nil slice with elements `l`.  Go
  code distinguishes the two only through `== nil`; `len` and `range` treat
  them alike, which `Diagnostics.elems` (`getD []`) captures.
* The `Diagnostic` interface is a value exposing the three accessors
  `Severity`, `Description`, `Source`; the package type-tests only for its
  own `nativeError` implementation, so a diagnostic is either an arbitrary
  (`user`) implementation determined by its accessor results, or a
  `native` wrapper around an original Go error value.
* Go `error` values reaching this package are modelled by `GoErr`; fallible
  control flow (`panic`) is modelled by `Except String`.
* `sort.Stable` is modelled by `List.insertionSort`, a stable sort; a stable
  sort output is uniquely determined by the comparison relation, so any
  faithful model of `sort.Stable` computes this list.
-/

namespace Tbdiags

/-- Severity of a diagnostic (src/tbdiags/diagnostic.go): a closed
two-valued classification. -/
inductive Severity where
  | Error
  | Warning
deriving DecidableEq

/-- Description of a diagnostic (src/tbdiags/diagnostic.go). -/
structure Description where
  Address : String
  Summary : String
  Detail : String
deriving DecidableEq

/-- Modelled from the spec: the externally-defined position type is consumed
only through its byte offset (comparable with `<`). -/
structure Pos where
  Byte : Int
deriving DecidableEq

/-- Modelled from the spec: the externally-defined source-range type, which
the package consumes only through value equality and the ordering key
(filename string, start/end byte offsets).  Fields the package never reads
are omitted; this makes value equality coincide with equality of the key,
which does not change any comparison result (when the keys are equal the
sort comparison returns false for both orders either way). -/
structure SourceRange where
  Filename : String
  Start : Pos
  End : Pos
deriving DecidableEq

/-- Source of a diagnostic (src/tbdiags/diagnostic.go): optional subject and
context ranges (`*SourceRange` pointers, `nil` = `none`). -/
structure Source where
  Subject : Option SourceRange
  Context : Option SourceRange
deriving DecidableEq

mutual
/-- A value of the `Diagnostic` interface.  `user` is an arbitrary
implementation, determined by what its three accessors return; `native` is
the package-internal `nativeError` wrapper holding an original error value. -/
inductive Diagnostic where
  | user : Severity → Description → Source → Diagnostic
  | native : GoErr → Diagnostic

/-- A generic Go `error` value as `Diagnostics.Append` can receive it:
either a plain error exposing only its message, or an error that
structurally wraps a `Diagnostics` value (the case detected through
`errwrap.ContainsType` / extracted through `errwrap.GetType`). -/
inductive GoErr where
  | plain : String → GoErr
  | wrapping : String → Option (List Diagnostic) → GoErr
end

/-- The message of a Go error value (`err.Error()`). -/
def GoErr.message : GoErr → String
  | .plain msg => msg
  | .wrapping msg _ => msg

/-- The `Severity()` accessor.  For `nativeError`, modelled from the spec:
opaquely-wrapped causal errors are always treated as Error severity. -/
def Diagnostic.Severity : Diagnostic → Severity
  | .user sev _ _ => sev
  | .native _ => Severity.Error

/-- The `Description()` accessor.  For `nativeError`, modelled from the
spec: the summary is the wrapped error message, no detail, no address. -/
def Diagnostic.Description : Diagnostic → Description
  | .user _ descr _ => descr
  | .native err => { Address := "", Summary := err.message, Detail := "" }

/-- The `Source()` accessor.  For `nativeError`, modelled from the spec:
no source location. -/
def Diagnostic.Source : Diagnostic → Source
  | .user _ _ src => src
  | .native _ => { Subject := none, Context := none }

/-- `type Diagnostics []Diagnostic`, a Go slice: `none` is the nil slice. -/
abbrev Diagnostics := Option (List Diagnostic)

/-- The elements of a `Diagnostics` slice; the nil slice has none. -/
def Diagnostics.elems (diags : Diagnostics) : List Diagnostic := diags.getD []

/-- Go `append(s, xs...)`: appending no elements returns the slice
unchanged (in particular the nil slice stays nil); appending at least one
element yields a non-nil slice with the concatenated elements. -/
def goAppend (s : Diagnostics) (xs : List Diagnostic) : Diagnostics :=
  match xs with
  | [] => s
  | _ => some (s.elems ++ xs)

/-- One `interface{}` argument of `Diagnostics.Append`, classified by the
dynamic shapes its type switch distinguishes. -/
inductive GoValue where
  | nilV : GoValue
  | diag : Diagnostic → GoValue
  | diags : Diagnostics → GoValue
  | diagnosticsAsError : Diagnostics → GoValue
  | NonFatalError : Diagnostics → GoValue
  | multierror : List GoErr → GoValue
  | goError : GoErr → GoValue
  | other : String → GoValue

/-- Termination measure for `Diagnostics.Append`: the cases that re-enter
`Append` with a single `diags` argument get extra weight. -/
def GoValue.size : GoValue → Nat
  | .diagnosticsAsError _ => 3
  | .NonFatalError _ => 3
  | .goError _ => 3
  | _ => 1

def sizeL (l : List GoValue) : Nat := (l.map GoValue.size).sum

mutual

/-- The `for _, item := range new` loop body of `Diagnostics.Append`:
  * `nil` is skipped;
  * a `Diagnostic` is appended;
  * a `Diagnostics` is appended element-wise (flatten);
  * `diagnosticsAsError` and `NonFatalError` re-enter `Append` with their
    inner `Diagnostics`;
  * a `*multierror.Error` appends one `nativeError` per causal error;
  * an `error` wrapping a `Diagnostics` (per `errwrap.ContainsType`)
    re-enters `Append` with the extracted collection, any other `error` is
    appended as a `nativeError`;
  * anything else panics (`Except.error`). -/
def appendLoop (diags : Diagnostics) (new : List GoValue) :
    Except String Diagnostics :=
  match new with
  | [] => .ok diags
  | item :: rest =>
    match item with
    | .nilV => appendLoop diags rest
    | .diag d => appendLoop (some (diags.elems ++ [d])) rest
    | .diags ds => appendLoop (goAppend diags ds.elems) rest
    | .diagnosticsAsError ds =>
      match Diagnostics.Append diags [.diags ds] with
      | .ok d => appendLoop d rest
      | .error e => .error e
    | .NonFatalError ds =>
      match Diagnostics.Append diags [.diags ds] with
      | .ok d => appendLoop d rest
      | .error e => .error e
    | .multierror errs =>
      appendLoop (goAppend diags (errs.map Diagnostic.native)) rest
    | .goError e =>
      match e with
      | .wrapping _ ds =>
        match Diagnostics.Append diags [.diags ds] with
        | .ok d => appendLoop d rest
        | .error err => .error err
      | .plain _ => appendLoop (some (diags.elems ++ [Diagnostic.native e])) rest
    | .other ty => .error ("can\x27t construct diagnostic(s) from " ++ ty)
termination_by sizeL new
decreasing_by all_goals (simp [sizeL, GoValue.size] <;> omega)

/-- `Diagnostics.Append`: run the loop, then normalize — a resulting slice
with zero elements is returned as the nil slice (`if len(diags) == 0 {
return nil }`). -/
def Diagnostics.Append (diags : Diagnostics) (new : List GoValue) :
    Except String Diagnostics :=
  (appendLoop diags new).map fun d => if d.elems.length = 0 then none else d
termination_by sizeL new + 1
decreasing_by simp [sizeL, GoValue.size]

end

/-- `Diagnostics.HasErrors`: true if any diagnostic has severity Error. -/
def Diagnostics.HasErrors (diags : Diagnostics) : Bool :=
  diags.elems.any fun diag => diag.Severity == Severity.Error

/-- A non-nil Go `error` value returned by the conversion operations: the
dynamic type is either `diagnosticsAsError` (the fatal view) or
`NonFatalError` (the non-fatal view), each holding the collection. -/
inductive ErrValue where
  | diagnosticsAsError : Diagnostics → ErrValue
  | NonFatalError : Diagnostics → ErrValue

/-- `Diagnostics.Err`: nil unless the collection has errors, else the
fatal view wrapping the collection. -/
def Diagnostics.Err (diags : Diagnostics) : Option ErrValue :=
  if !diags.HasErrors then none
  else some (.diagnosticsAsError diags)

/-- `Diagnostics.ErrWithWarnings`: nil if empty; `Err()` if there are
errors; else the non-fatal view wrapping the collection. -/
def Diagnostics.ErrWithWarnings (diags : Diagnostics) : Option ErrValue :=
  if diags.elems.length = 0 then none
  else if diags.HasErrors then diags.Err
  else some (.NonFatalError diags)

/-- `Diagnostics.NonFatalErr`: nil if empty, else always the non-fatal
view wrapping the collection. -/
def Diagnostics.NonFatalErr (diags : Diagnostics) : Option ErrValue :=
  if diags.elems.length = 0 then none
  else some (.NonFatalError diags)

/-- `diagnosticsAsError.Error()`: the fatal view message, rendered from
the wrapped collection (the receiver field `Diagnostics`). -/
def diagnosticsAsError.Error (diags : Diagnostics) : String :=
  match diags.elems with
  | [] => "no errors"
  | [d] =>
    let desc := d.Description
    if desc.Detail = "" then desc.Summary
    else desc.Summary ++ ": " ++ desc.Detail
  | l =>
    toString l.length ++ " problems:\n" ++
      String.join (l.map fun diag =>
        let desc := diag.Description
        if desc.Detail = "" then "\n- " ++ desc.Summary
        else "\n- " ++ desc.Summary ++ ": " ++ desc.Detail)

/-- `diagnosticsAsError.WrappedErrors()`: the original error value of every
`nativeError` element, in collection order. -/
def diagnosticsAsError.WrappedErrors (diags : Diagnostics) : List GoErr :=
  diags.elems.filterMap fun diag =>
    match diag with
    | .native err => some err
    | _ => none

/-- `NonFatalError.Error()`: the non-fatal view message, rendered from
the wrapped collection (the receiver field `Diagnostics`). -/
def NonFatalError.Error (diags : Diagnostics) : String :=
  match diags.elems with
  | [] => "no errors or warnings"
  | [d] =>
    let desc := d.Description
    if desc.Detail = "" then desc.Summary
    else desc.Summary ++ ": " ++ desc.Detail
  | l =>
    (if diags.HasErrors then toString l.length ++ " problems:\n"
     else toString l.length ++ " warnings:\n") ++
      String.join (l.map fun diag =>
        let desc := diag.Description
        if desc.Detail = "" then "\n- " ++ desc.Summary
        else "\n- " ++ desc.Summary ++ ": " ++ desc.Detail)

/-- `filepath.Separator` on the Unix target platform. -/
def filepathSeparator : Char := '/'

/-- `strings.Count` with a single-character non-empty substring: the number
of occurrences of that character. -/
def stringsCount (s : String) (sep : Char) : Nat := s.toList.count sep

/-- Bytewise lexicographic comparison, the Go string `<`, on the
character lists of the two strings.  (UTF-8 byte order agrees with code
point order, so comparing characters is comparing bytes.) -/
def listCharLtb : List Char → List Char → Bool
  | [], [] => false
  | [], _ :: _ => true
  | _ :: _, [] => false
  | x :: xs, y :: ys =>
    if x < y then true
    else if x = y then listCharLtb xs ys
    else false

/-- Go string comparison `a < b`. -/
def goStringLt (a b : String) : Bool := listCharLtb a.toList b.toList

/-- `sortDiagnostics.Less(i, j)`, phrased on the two elements `sd[i]` and
`sd[j]` directly. -/
def sortDiagnostics.Less (iD jD : Diagnostic) : Bool :=
  let iSev := iD.Severity
  let jSev := jD.Severity
  let iSrc := iD.Source
  let jSrc := jD.Source
  if iSev ≠ jSev then
    iSev == Severity.Warning
  else if iSrc.Subject.isNone ≠ jSrc.Subject.isNone then
    iSrc.Subject.isNone
  else
    match iSrc.Subject, jSrc.Subject with
    | some iSubj, some jSubj =>
      if iSubj ≠ jSubj then
        if iSubj.Filename ≠ jSubj.Filename then
          let iCount := stringsCount iSubj.Filename filepathSeparator
          let jCount := stringsCount jSubj.Filename filepathSeparator
          if iCount ≠ jCount then decide (iCount < jCount)
          else goStringLt iSubj.Filename jSubj.Filename
        else if iSubj.Start.Byte ≠ jSubj.Start.Byte then
          decide (iSubj.Start.Byte < jSubj.Start.Byte)
        else if iSubj.End.Byte ≠ jSubj.End.Byte then
          decide (iSubj.End.Byte < jSubj.End.Byte)
        else false
      else false
    | _, _ => false

/-- The non-strict total preorder `sort.Stable` sorts by: `a` may be placed
before `b` exactly when `Less b a` is false. -/
def sortLe (a b : Diagnostic) : Prop := sortDiagnostics.Less b a = false

instance sortLe.decidableRel : DecidableRel sortLe :=
  fun a b => Bool.decEq (sortDiagnostics.Less b a) false

/-- `Diagnostics.Sort`: `sort.Stable(sortDiagnostics(diags))`, modelled as
the stable insertion sort by `sortLe`.  The postcondition of `sort.Stable`
(a permutation, pairwise not-`Less`-inverted, equal-ranked elements in
original order) determines its output uniquely, and `insertionSort`
satisfies exactly that postcondition. -/
def Diagnostics.Sort (diags : Diagnostics) : Diagnostics :=
  diags.map fun l => List.insertionSort sortLe l

/-! ### Sort-order analysis

The comparison `sortDiagnostics.Less` is (provably, below) the strict
order of a lexicographic sort key: severity rank first (Warning before
Error), then the subject, absent subjects first, then the subject
separator count, filename, start byte and end byte lexicographically. -/

/-- The lexicographic key a subject range is ordered by: separator count,
then filename, then start byte, then end byte. -/
abbrev SubjKey := Nat ×ₗ List Char ×ₗ Int ×ₗ Int

/-- The sort key of a subject range. -/
def SourceRange.sortKey (r : SourceRange) : SubjKey :=
  toLex (stringsCount r.Filename filepathSeparator,
    toLex (r.Filename.toList, toLex (r.Start.Byte, r.End.Byte)))

/-- Warnings sort before errors. -/
def Severity.rank : Severity → Nat
  | .Warning => 0
  | .Error => 1

/-- The full sort key of a diagnostic: severity rank, then the subject key
with absent subjects first. -/
def Diagnostic.sortKey (d : Diagnostic) : Nat ×ₗ WithBot SubjKey :=
  toLex (d.Severity.rank,
    match d.Source.Subject with
    | none => (⊥ : WithBot SubjKey)
    | some r => (r.sortKey : WithBot SubjKey))

/-- The precedence relation exactly as the spec states it: Warning-severity
items before Error-severity items; among equal severity, items with no
source subject before items with one; among equal severity with unequal
subjects, fewer path separators in the filename first, then lexicographic
filename, then ascending start byte, then ascending end byte. -/
def specSortsBefore (a b : Diagnostic) : Prop :=
  (a.Severity = Severity.Warning ∧ b.Severity = Severity.Error) ∨
  (a.Severity = b.Severity ∧
    a.Source.Subject = none ∧ b.Source.Subject ≠ none) ∨
  (a.Severity = b.Severity ∧ ∃ ra rb,
    a.Source.Subject = some ra ∧ b.Source.Subject = some rb ∧ ra ≠ rb ∧
    (stringsCount ra.Filename filepathSeparator <
        stringsCount rb.Filename filepathSeparator ∨
     (stringsCount ra.Filename filepathSeparator =
        stringsCount rb.Filename filepathSeparator ∧
      List.Lex (· < ·) ra.Filename.toList rb.Filename.toList) ∨
     (ra.Filename = rb.Filename ∧ ra.Start.Byte < rb.Start.Byte) ∨
     (ra.Filename = rb.Filename ∧ ra.Start.Byte = rb.Start.Byte ∧
      ra.End.Byte < rb.End.Byte)))


def exDiag1 : Diagnostic :=
  .user Severity.Error ⟨"", "e1", ""⟩
    ⟨some ⟨"/a/b.tf", ⟨10⟩, ⟨10⟩⟩, none⟩

def exDiag2 : Diagnostic :=
  .user Severity.Warning ⟨"", "w1", ""⟩ ⟨none, none⟩

def exDiag3 : Diagnostic :=
  .user Severity.Error ⟨"", "e2", ""⟩
    ⟨some ⟨"/a.tf", ⟨5⟩, ⟨5⟩⟩, none⟩

def sumDiag1 : Diagnostic := .user Severity.Error ⟨"", "s1", ""⟩ ⟨none, none⟩

def sumDiag2 : Diagnostic := .user Severity.Error ⟨"", "s2", ""⟩ ⟨none, none⟩

def sumDiag3 : Diagnostic := .user Severity.Error ⟨"", "s3", ""⟩ ⟨none, none⟩


/-! ### Helper lemmas -/

theorem hasErrors_of_nil (diags : Tbdiags.Diagnostics)
    (h : diags.elems.length = 0) : diags.HasErrors = false := by
  have he : diags.elems = [] := List.length_eq_zero.mp h
  simp [Tbdiags.Diagnostics.HasErrors, he]

theorem appendLoop_single_diags (diags ds : Diagnostics) :
    appendLoop diags [GoValue.diags ds] = .ok (goAppend diags ds.elems) := by
  simp [appendLoop]

theorem append_single_diags (diags ds : Diagnostics) :
    Diagnostics.Append diags [GoValue.diags ds] =
      .ok (if (goAppend diags ds.elems).elems.length = 0 then none
           else goAppend diags ds.elems) := by
  simp [Diagnostics.Append, appendLoop_single_diags, Except.map]

theorem appendLoop_ok_of_no_other :
    ∀ (new : List GoValue) (diags : Diagnostics),
      (∀ ty, GoValue.other ty ∉ new) →
      ∃ d, appendLoop diags new = .ok d := by
  intro new
  induction new with
  | nil => exact fun diags _ => ⟨diags, by simp [appendLoop]⟩
  | cons item rest ih =>
    intro diags hno
    have hrest : ∀ ty, GoValue.other ty ∉ rest := by
      intro ty hmem
      exact hno ty (List.mem_cons_of_mem _ hmem)
    match item with
    | .nilV =>
      obtain ⟨d, hd⟩ := ih diags hrest
      exact ⟨d, by simp [appendLoop, hd]⟩
    | .diag x =>
      obtain ⟨d, hd⟩ := ih (some (diags.elems ++ [x])) hrest
      exact ⟨d, by simp [appendLoop, hd]⟩
    | .diags ds =>
      obtain ⟨d, hd⟩ := ih (goAppend diags ds.elems) hrest
      exact ⟨d, by simp [appendLoop, hd]⟩
    | .diagnosticsAsError ds =>
      obtain ⟨d, hd⟩ :=
        ih (if (goAppend diags ds.elems).elems.length = 0 then none
            else goAppend diags ds.elems) hrest
      exact ⟨d, by simp [appendLoop, append_single_diags, hd]⟩
    | .NonFatalError ds =>
      obtain ⟨d, hd⟩ :=
        ih (if (goAppend diags ds.elems).elems.length = 0 then none
            else goAppend diags ds.elems) hrest
      exact ⟨d, by simp [appendLoop, append_single_diags, hd]⟩
    | .multierror errs =>
      obtain ⟨d, hd⟩ := ih (goAppend diags (errs.map Diagnostic.native)) hrest
      exact ⟨d, by simp [appendLoop, hd]⟩
    | .goError (.plain msg) =>
      obtain ⟨d, hd⟩ :=
        ih (some (diags.elems ++ [Diagnostic.native (GoErr.plain msg)])) hrest
      exact ⟨d, by simp [appendLoop, hd]⟩
    | .goError (.wrapping msg ds) =>
      obtain ⟨d, hd⟩ :=
        ih (if (goAppend diags (Diagnostics.elems ds)).elems.length = 0 then none
            else goAppend diags (Diagnostics.elems ds)) hrest
      exact ⟨d, by simp [appendLoop, append_single_diags, hd]⟩
    | .other ty => exact absurd (List.mem_cons_self _ _) (hno ty)

theorem appendLoop_error_of_other :
    ∀ (new : List GoValue) (diags : Diagnostics) (ty : String),
      GoValue.other ty ∈ new →
      ∃ e, appendLoop diags new = .error e := by
  intro new
  induction new with
  | nil => intro _ _ h; simp at h
  | cons item rest ih =>
    intro diags ty hmem
    rcases List.mem_cons.mp hmem with heq | hrest
    · subst heq
      exact ⟨"can\x27t construct diagnostic(s) from " ++ ty, by simp [appendLoop]⟩
    · match item with
      | .nilV =>
        obtain ⟨e, he⟩ := ih diags ty hrest
        exact ⟨e, by simp [appendLoop, he]⟩
      | .diag x =>
        obtain ⟨e, he⟩ := ih (some (diags.elems ++ [x])) ty hrest
        exact ⟨e, by simp [appendLoop, he]⟩
      | .diags ds =>
        obtain ⟨e, he⟩ := ih (goAppend diags ds.elems) ty hrest
        exact ⟨e, by simp [appendLoop, he]⟩
      | .diagnosticsAsError ds =>
        obtain ⟨e, he⟩ :=
          ih (if (goAppend diags ds.elems).elems.length = 0 then none
              else goAppend diags ds.elems) ty hrest
        exact ⟨e, by simp [appendLoop, append_single_diags, he]⟩
      | .NonFatalError ds =>
        obtain ⟨e, he⟩ :=
          ih (if (goAppend diags ds.elems).elems.length = 0 then none
              else goAppend diags ds.elems) ty hrest
        exact ⟨e, by simp [appendLoop, append_single_diags, he]⟩
      | .multierror errs =>
        obtain ⟨e, he⟩ := ih (goAppend diags (errs.map Diagnostic.native)) ty hrest
        exact ⟨e, by simp [appendLoop, he]⟩
      | .goError (.plain msg) =>
        obtain ⟨e, he⟩ :=
          ih (some (diags.elems ++ [Diagnostic.native (GoErr.plain msg)])) ty hrest
        exact ⟨e, by simp [appendLoop, he]⟩
      | .goError (.wrapping msg ds) =>
        obtain ⟨e, he⟩ :=
          ih (if (goAppend diags (Diagnostics.elems ds)).elems.length = 0 then none
              else goAppend diags (Diagnostics.elems ds)) ty hrest
        exact ⟨e, by simp [appendLoop, append_single_diags, he]⟩
      | .other ty2 =>
        exact ⟨"can\x27t construct diagnostic(s) from " ++ ty2, by simp [appendLoop]⟩

/-! ### Claim theorems -/

theorem goAppend_elems (s : Diagnostics) (xs : List Diagnostic) :
    (goAppend s xs).elems = s.elems ++ xs := by
  cases xs <;> simp [goAppend, Diagnostics.elems]

theorem append_ok_elems (diags : Diagnostics) (new : List GoValue)
    (d : Diagnostics) (h : Diagnostics.Append diags new = .ok d) :
    ∃ d0, appendLoop diags new = .ok d0 ∧ d.elems = d0.elems := by
  rw [Diagnostics.Append] at h
  cases hloop : appendLoop diags new with
  | error e => rw [hloop] at h; simp [Except.map] at h
  | ok d0 =>
    rw [hloop] at h
    simp only [Except.map] at h
    cases h
    refine ⟨d0, rfl, ?_⟩
    by_cases h0 : d0.elems.length = 0
    · rw [if_pos h0]
      have hnil : d0.elems = [] := List.length_eq_zero.mp h0
      simpa [Diagnostics.elems] using hnil.symm
    · rw [if_neg h0]

theorem appendLoop_plain_errors :
    ∀ (msgs : List String) (diags : Diagnostics),
      ∃ d0,
        appendLoop diags (msgs.map fun m => GoValue.goError (GoErr.plain m)) =
          .ok d0 ∧
        d0.elems =
          diags.elems ++ msgs.map fun m => Diagnostic.native (GoErr.plain m) := by
  intro msgs
  induction msgs with
  | nil =>
    intro diags
    exact ⟨diags, by simp [appendLoop], by simp⟩
  | cons m ms ih =>
    intro diags
    obtain ⟨d0, h1, h2⟩ :=
      ih (some (diags.elems ++ [Diagnostic.native (GoErr.plain m)]))
    refine ⟨d0, ?_, ?_⟩
    · simp only [List.map_cons]
      rw [show appendLoop diags
            (GoValue.goError (GoErr.plain m) ::
              ms.map fun m => GoValue.goError (GoErr.plain m)) =
          appendLoop (some (diags.elems ++ [Diagnostic.native (GoErr.plain m)]))
            (ms.map fun m => GoValue.goError (GoErr.plain m)) from by
        simp [appendLoop]]
      exact h1
    · rw [h2]
      simp [Diagnostics.elems]

/-- Claim C1 counterexample: for a three-item collection with summaries
"s1", "s2", "s3" and empty details, the fatal view message is not the
claimed string with a blank line before every bullet — the code writes one
newline before the blank line that follows the header only, and single newlines
between consecutive bullets. -/
theorem fatal_view_message_counterexample :
    diagnosticsAsError.Error (some [sumDiag1, sumDiag2, sumDiag3]) ≠
      "3 problems:\n\n- s1\n\n- s2\n\n- s3" := by
  decide

/-- Claim C1 (amended): for a one-item collection the message is the
summary alone when the detail is empty, and "summary: detail" otherwise;
for a three-item collection with summaries s1, s2, s3 and empty details
the message is "3 problems:\n\n- s1\n- s2\n- s3" — one bullet per item
in collection order, with a blank line after the header and a single
newline between consecutive bullets. -/
theorem fatal_view_message :
    (∀ d : Diagnostic, d.Description.Detail = "" →
      diagnosticsAsError.Error (some [d]) = d.Description.Summary) ∧
    (∀ d : Diagnostic, d.Description.Detail ≠ "" →
      diagnosticsAsError.Error (some [d]) =
        d.Description.Summary ++ ": " ++ d.Description.Detail) ∧
    (∀ d1 d2 d3 : Diagnostic,
      d1.Description.Detail = "" → d2.Description.Detail = "" →
      d3.Description.Detail = "" →
      diagnosticsAsError.Error (some [d1, d2, d3]) =
        "3 problems:\n\n- " ++ d1.Description.Summary ++ "\n- " ++
          d2.Description.Summary ++ "\n- " ++ d3.Description.Summary) := by
  refine ⟨?_, ?_, ?_⟩
  · intro d h
    simp [diagnosticsAsError.Error, Diagnostics.elems, h]
  · intro d h
    simp [diagnosticsAsError.Error, Diagnostics.elems, h]
  · intro d1 d2 d3 h1 h2 h3
    apply String.ext
    simp only [diagnosticsAsError.Error, Diagnostics.elems, Option.getD,
      List.map_cons, List.map_nil, h1, h2, h3, if_pos, String.join,
      List.foldl, String.data_append, List.append_assoc, String.empty_append,
      List.length_cons, List.length_nil]
    rfl

/-- Claim C2: for every findings collection, `Err()` returns nil iff
`HasErrors()` is false (a warnings-only collection yields nil), and
otherwise returns the fatal-error view wrapping the collection unchanged. -/
theorem err_iff_hasErrors (diags : Diagnostics) :
    (diags.Err = none ↔ diags.HasErrors = false) ∧
    (diags.HasErrors = true →
      diags.Err = some (ErrValue.diagnosticsAsError diags)) := by
  by_cases h : diags.HasErrors <;> simp [Diagnostics.Err, h]

/-- Witness for `err_iff_hasErrors` at a one-error collection. -/
theorem err_iff_hasErrors_witness :
    Diagnostics.Err (some [exDiag1]) =
      some (ErrValue.diagnosticsAsError (some [exDiag1])) :=
  (err_iff_hasErrors (some [exDiag1])).2 (by decide)

/-- Claim C3: `ErrWithWarnings()` returns nil iff the collection is empty;
with at least one Error-severity item it equals `Err()`; non-empty and
warnings-only it returns the distinct non-fatal shape wrapping the whole
collection, never nil. -/
theorem errWithWarnings_behavior (diags : Diagnostics) :
    (diags.ErrWithWarnings = none ↔ diags.elems.length = 0) ∧
    (diags.HasErrors = true → diags.ErrWithWarnings = diags.Err) ∧
    (diags.elems.length ≠ 0 → diags.HasErrors = false →
      diags.ErrWithWarnings = some (ErrValue.NonFatalError diags)) := by
  refine ⟨?_, ?_, ?_⟩
  · by_cases hl : diags.elems.length = 0
    · simp [Diagnostics.ErrWithWarnings, hl]
    · by_cases he : diags.HasErrors <;>
        simp [Diagnostics.ErrWithWarnings, Diagnostics.Err, hl, he]
  · intro he
    have hl : diags.elems.length ≠ 0 := by
      intro h
      rw [hasErrors_of_nil diags h] at he
      cases he
    simp [Diagnostics.ErrWithWarnings, hl, he]
  · intro hl he
    simp [Diagnostics.ErrWithWarnings, hl, he]

/-- Witness for `errWithWarnings_behavior` at a warnings-only collection. -/
theorem errWithWarnings_behavior_witness :
    Diagnostics.ErrWithWarnings (some [exDiag2]) =
      some (ErrValue.NonFatalError (some [exDiag2])) :=
  (errWithWarnings_behavior (some [exDiag2])).2.2 (by decide) (by decide)

/-- Claim C4: `NonFatalErr()` returns nil iff the collection is empty, and
otherwise always the non-fatal view wrapping the whole collection,
regardless of the severities present. -/
theorem nonFatalErr_behavior (diags : Diagnostics) :
    (diags.NonFatalErr = none ↔ diags.elems.length = 0) ∧
    (diags.elems.length ≠ 0 →
      diags.NonFatalErr = some (ErrValue.NonFatalError diags)) := by
  by_cases hl : diags.elems.length = 0 <;>
    simp [Diagnostics.NonFatalErr, hl]

/-- Witness for `nonFatalErr_behavior` at a collection containing an
error-severity item. -/
theorem nonFatalErr_behavior_witness :
    Diagnostics.NonFatalErr (some [exDiag1]) =
      some (ErrValue.NonFatalError (some [exDiag1])) :=
  (nonFatalErr_behavior (some [exDiag1])).2 (by decide)

/-- Claim C5: `Append` skips nil inputs (`accumulate(nil, nil)` is
absence); appending a collection flattens it into individual elements, the
result being exactly the concatenation (so it never contains a nested
collection) with `len(accumulate(A, B)) = len(A) + len(B)`; and a
zero-element result is returned as absence, never as an empty-but-present
collection. -/
theorem append_flattening :
    (∀ (diags : Diagnostics) (rest : List GoValue),
      Diagnostics.Append diags (GoValue.nilV :: rest) =
        Diagnostics.Append diags rest) ∧
    (Diagnostics.Append none [GoValue.nilV, GoValue.nilV] = .ok none) ∧
    (∀ A B : List Diagnostic,
      Diagnostics.Append (some A) [GoValue.diags (some B)] =
        .ok (if (A ++ B).length = 0 then none else some (A ++ B))) ∧
    (∀ A B : List Diagnostic, ∀ d : Diagnostics,
      Diagnostics.Append (some A) [GoValue.diags (some B)] = .ok d →
      d.elems.length = A.length + B.length) ∧
    (∀ (diags : Diagnostics) (new : List GoValue) (d : Diagnostics),
      Diagnostics.Append diags new = .ok d → d.elems.length = 0 → d = none) := by
  have h3 : ∀ A B : List Diagnostic,
      Diagnostics.Append (some A) [GoValue.diags (some B)] =
        .ok (if (A ++ B).length = 0 then none else some (A ++ B)) := by
    intro A B
    rw [append_single_diags]
    cases B with
    | nil => rw [List.append_nil]; simp [goAppend, Diagnostics.elems]
    | cons b bs => simp [goAppend, Diagnostics.elems]
  refine ⟨?_, ?_, h3, ?_, ?_⟩
  · intro diags rest
    simp [Diagnostics.Append, appendLoop]
  · simp [Diagnostics.Append, appendLoop, Diagnostics.elems, Except.map]
  · intro A B d h
    rw [h3] at h
    cases h
    by_cases hl : (A ++ B).length = 0
    · rw [if_pos hl]
      rw [List.length_append] at hl
      simp [Diagnostics.elems]
      omega
    · rw [if_neg hl]
      simp [Diagnostics.elems]
  · intro diags new d h hlen
    rw [Diagnostics.Append] at h
    cases hloop : appendLoop diags new with
    | error e => rw [hloop] at h; simp [Except.map] at h
    | ok d0 =>
      rw [hloop] at h
      simp only [Except.map] at h
      cases h
      by_cases h0 : d0.elems.length = 0
      · rw [if_pos h0]
      · rw [if_neg h0] at hlen
        exact absurd hlen h0

/-- Witness for `append_flattening`: flattening two singleton collections. -/
theorem append_flattening_witness :
    (Diagnostics.elems (some [exDiag1, exDiag2])).length = 1 + 1 :=
  append_flattening.2.2.2.1 [exDiag1] [exDiag2] (some [exDiag1, exDiag2])
    (by simp [Diagnostics.Append, appendLoop, goAppend, Diagnostics.elems,
          Except.map])

/-- Witness for `fatal_view_message` at a one-item collection with
non-empty detail. -/
theorem fatal_view_message_witness :
    diagnosticsAsError.Error
        (some [Diagnostic.user Severity.Error ⟨"", "sum", "det"⟩ ⟨none, none⟩]) =
      "sum" ++ ": " ++ "det" :=
  fatal_view_message.2.1
    (Diagnostic.user Severity.Error ⟨"", "sum", "det"⟩ ⟨none, none⟩) (by decide)

/-- Claim C7: the non-fatal view renders like the fatal view, except that
the zero-element fallback is "no errors or warnings" (the fatal view has
"no errors"), and the more-than-one-element header is "<n> problems:" when
the collection has an error-severity element and "<n> warnings:" otherwise
(the bullet list after the header is identical). -/
theorem nonFatal_view_message :
    (∀ ds : Diagnostics, ds.elems.length = 0 →
      NonFatalError.Error ds = "no errors or warnings") ∧
    (∀ ds : Diagnostics, ds.elems.length = 0 →
      diagnosticsAsError.Error ds = "no errors") ∧
    (∀ d : Diagnostic,
      NonFatalError.Error (some [d]) = diagnosticsAsError.Error (some [d])) ∧
    (∀ ds : Diagnostics, 1 < ds.elems.length → ds.HasErrors = true →
      NonFatalError.Error ds = diagnosticsAsError.Error ds) ∧
    (∀ ds : Diagnostics, 1 < ds.elems.length → ds.HasErrors = false →
      ∃ tail,
        diagnosticsAsError.Error ds =
          toString ds.elems.length ++ " problems:\n" ++ tail ∧
        NonFatalError.Error ds =
          toString ds.elems.length ++ " warnings:\n" ++ tail) := by
  have shape : ∀ ds : Diagnostics, 1 < ds.elems.length →
      ∃ a b l, ds.elems = a :: b :: l := by
    intro ds h
    match hds : ds.elems with
    | [] => rw [hds] at h; simp at h
    | [x] => rw [hds] at h; simp at h
    | a :: b :: l => exact ⟨a, b, l, rfl⟩
  refine ⟨?_, ?_, ?_, ?_, ?_⟩
  · intro ds h
    have hnil : ds.elems = [] := List.length_eq_zero.mp h
    simp [NonFatalError.Error, hnil]
  · intro ds h
    have hnil : ds.elems = [] := List.length_eq_zero.mp h
    simp [diagnosticsAsError.Error, hnil]
  · intro d
    simp [NonFatalError.Error, diagnosticsAsError.Error, Diagnostics.elems]
  · intro ds hlen he
    obtain ⟨a, b, l, hab⟩ := shape ds hlen
    simp only [NonFatalError.Error, diagnosticsAsError.Error, hab, he,
      if_true]
  · intro ds hlen he
    obtain ⟨a, b, l, hab⟩ := shape ds hlen
    simp only [NonFatalError.Error, diagnosticsAsError.Error, hab, he,
      Bool.false_eq_true, if_false]
    exact ⟨_, rfl, rfl⟩

/-- Witness for `nonFatal_view_message` at a two-warning collection. -/
theorem nonFatal_view_message_witness :
    ∃ tail,
      diagnosticsAsError.Error (some [exDiag2, exDiag2]) =
        toString (Diagnostics.elems (some [exDiag2, exDiag2])).length ++
          " problems:\n" ++ tail ∧
      NonFatalError.Error (some [exDiag2, exDiag2]) =
        toString (Diagnostics.elems (some [exDiag2, exDiag2])).length ++
          " warnings:\n" ++ tail :=
  nonFatal_view_message.2.2.2.2 (some [exDiag2, exDiag2]) (by decide) (by decide)

theorem filterMap_native_plain (msgs : List String) :
    List.filterMap (fun diag =>
      match diag with
      | Diagnostic.native err => some err
      | _ => none) (msgs.map fun m => Diagnostic.native (GoErr.plain m)) =
      msgs.map GoErr.plain := by
  induction msgs with
  | nil => rfl
  | cons m ms ih => simpa using ih

/-- Claim C8: the fatal view capability `WrappedErrors` recovers exactly the
original error values that were opaquely wrapped during accumulation, in
collection order, and user-authored (non-opaque) diagnostic items
contribute nothing to the list. -/
theorem wrappedErrors_recover :
    (∀ (diags : Diagnostics) (msgs : List String) (d : Diagnostics),
      Diagnostics.Append diags
          (msgs.map fun m => GoValue.goError (GoErr.plain m)) = .ok d →
      diagnosticsAsError.WrappedErrors d =
        diagnosticsAsError.WrappedErrors diags ++ msgs.map GoErr.plain) ∧
    (∀ (diags : Diagnostics) (items : List Diagnostic) (d : Diagnostics),
      (∀ i ∈ items, ∃ sev descr src, i = Diagnostic.user sev descr src) →
      Diagnostics.Append diags [GoValue.diags (some items)] = .ok d →
      diagnosticsAsError.WrappedErrors d =
        diagnosticsAsError.WrappedErrors diags) := by
  constructor
  · intro diags msgs d h
    obtain ⟨d0, hl, he⟩ := append_ok_elems _ _ _ h
    obtain ⟨d1, hl2, he2⟩ := appendLoop_plain_errors msgs diags
    rw [hl] at hl2
    cases hl2
    simp only [diagnosticsAsError.WrappedErrors]
    rw [he, he2, List.filterMap_append, filterMap_native_plain]
  · intro diags items d hall h
    obtain ⟨d0, hl, he⟩ := append_ok_elems _ _ _ h
    rw [appendLoop_single_diags] at hl
    cases hl
    simp only [diagnosticsAsError.WrappedErrors]
    rw [he, goAppend_elems, List.filterMap_append]
    have hnone : List.filterMap (fun diag =>
        match diag with
        | Diagnostic.native err => some err
        | _ => none) (Diagnostics.elems (some items)) = [] := by
      rw [List.filterMap_eq_nil_iff]
      intro i hi
      obtain ⟨sev, descr, src, rfl⟩ := hall i hi
      rfl
    rw [hnone, List.append_nil]

/-- Witness for `wrappedErrors_recover`: appending one plain Go error to
the empty collection and unwrapping it again. -/
theorem wrappedErrors_recover_witness :
    diagnosticsAsError.WrappedErrors
        (some [Diagnostic.native (GoErr.plain "boom")]) =
      diagnosticsAsError.WrappedErrors none ++
        List.map GoErr.plain ["boom"] :=
  wrappedErrors_recover.1 none ["boom"]
    (some [Diagnostic.native (GoErr.plain "boom")])
    (by simp [Diagnostics.Append, appendLoop, Diagnostics.elems, Except.map])

/-- Claim C9: an input whose shape is not one of the recognized kinds makes
`Append` abort (panic) with a message identifying the unsupported shape;
and `Append` aborts exactly when such an input is present — it never
silently drops an unknown input. -/
theorem append_panics_on_unknown :
    (∀ (diags : Diagnostics) (ty : String) (rest : List GoValue),
      Diagnostics.Append diags (GoValue.other ty :: rest) =
        .error ("can\x27t construct diagnostic(s) from " ++ ty)) ∧
    (∀ (diags : Diagnostics) (new : List GoValue),
      (∃ e, Diagnostics.Append diags new = .error e) ↔
        ∃ ty, GoValue.other ty ∈ new) := by
  constructor
  · intro diags ty rest
    simp [Diagnostics.Append, appendLoop, Except.map]
  · intro diags new
    constructor
    · rintro ⟨e, he⟩
      by_contra hno
      push_neg at hno
      obtain ⟨d, hd⟩ := appendLoop_ok_of_no_other new diags
        (by intro ty hmem; exact hno ty hmem)
      rw [Diagnostics.Append, hd] at he
      simp [Except.map] at he
    · rintro ⟨ty, hmem⟩
      obtain ⟨e, he⟩ := appendLoop_error_of_other new diags ty hmem
      exact ⟨e, by rw [Diagnostics.Append, he]; rfl⟩

/-- Witness for `append_panics_on_unknown`: a shape outside the switch. -/
theorem append_panics_on_unknown_witness :
    Diagnostics.Append none [GoValue.other "int"] =
      .error "can\x27t construct diagnostic(s) from int" :=
  append_panics_on_unknown.1 none "int" []


/-! ### Sort-order bridge lemmas -/

theorem toList_inj (a b : String) : a.toList = b.toList ↔ a = b :=
  ⟨fun h => String.ext h, fun h => h ▸ rfl⟩

theorem list_char_lt_iff_lex (a b : List Char) :
    a < b ↔ List.Lex (· < ·) a b :=
  Iff.rfl

theorem lex_irrefl (l : List Char) : ¬ List.Lex (· < ·) l l :=
  fun h => lt_irrefl l ((list_char_lt_iff_lex l l).mpr h)

theorem listCharLtb_iff :
    ∀ l₁ l₂ : List Char, listCharLtb l₁ l₂ = true ↔ List.Lex (· < ·) l₁ l₂
  | [], [] => by simp [listCharLtb]
  | [], y :: ys => by
    simp [listCharLtb]
    exact List.Lex.nil
  | x :: xs, [] => by simp [listCharLtb]
  | x :: xs, y :: ys => by
    by_cases hxy : x < y
    · simp [listCharLtb, hxy]
      exact List.Lex.rel hxy
    · by_cases hxe : x = y
      · subst hxe
        rw [show listCharLtb (x :: xs) (x :: ys) = listCharLtb xs ys from by
          simp [listCharLtb, hxy]]
        rw [listCharLtb_iff xs ys]
        exact (List.Lex.cons_iff).symm
      · have hno : ¬ List.Lex (· < ·) (x :: xs) (y :: ys) := by
          intro h
          cases h with
          | cons h => exact hxe rfl
          | rel h => exact hxy h
        simp [listCharLtb, hxy, hxe, hno]


theorem subjKey_lt_iff (r₁ r₂ : SourceRange) :
    r₁.sortKey < r₂.sortKey ↔
      (stringsCount r₁.Filename filepathSeparator <
          stringsCount r₂.Filename filepathSeparator ∨
        (stringsCount r₁.Filename filepathSeparator =
            stringsCount r₂.Filename filepathSeparator ∧
          (List.Lex (· < ·) r₁.Filename.toList r₂.Filename.toList ∨
            (r₁.Filename = r₂.Filename ∧
              (r₁.Start.Byte < r₂.Start.Byte ∨
                (r₁.Start.Byte = r₂.Start.Byte ∧
                  r₁.End.Byte < r₂.End.Byte)))))) := by
  unfold SourceRange.sortKey
  simp only [Prod.Lex.lt_iff, list_char_lt_iff_lex, toList_inj]

theorem spec_subject_iff (r₁ r₂ : SourceRange) :
    (r₁ ≠ r₂ ∧
      (stringsCount r₁.Filename filepathSeparator <
          stringsCount r₂.Filename filepathSeparator ∨
        (stringsCount r₁.Filename filepathSeparator =
            stringsCount r₂.Filename filepathSeparator ∧
          List.Lex (· < ·) r₁.Filename.toList r₂.Filename.toList) ∨
        (r₁.Filename = r₂.Filename ∧ r₁.Start.Byte < r₂.Start.Byte) ∨
        (r₁.Filename = r₂.Filename ∧ r₁.Start.Byte = r₂.Start.Byte ∧
          r₁.End.Byte < r₂.End.Byte))) ↔
      r₁.sortKey < r₂.sortKey := by
  rw [subjKey_lt_iff]
  constructor
  · rintro ⟨hne, h | ⟨hc, hl⟩ | ⟨hf, hs⟩ | ⟨hf, hs, he⟩⟩
    · exact Or.inl h
    · exact Or.inr ⟨hc, Or.inl hl⟩
    · exact Or.inr ⟨by rw [hf], Or.inr ⟨hf, Or.inl hs⟩⟩
    · exact Or.inr ⟨by rw [hf], Or.inr ⟨hf, Or.inr ⟨hs, he⟩⟩⟩
  · rintro (h | ⟨hc, hl | ⟨hf, hs | ⟨hs, he⟩⟩⟩)
    · refine ⟨fun heq => ?_, Or.inl h⟩
      rw [heq] at h
      exact lt_irrefl _ h
    · refine ⟨fun heq => ?_, Or.inr (Or.inl ⟨hc, hl⟩)⟩
      rw [heq] at hl
      exact lex_irrefl _ hl
    · refine ⟨fun heq => ?_, Or.inr (Or.inr (Or.inl ⟨hf, hs⟩))⟩
      rw [heq] at hs
      exact lt_irrefl _ hs
    · refine ⟨fun heq => ?_, Or.inr (Or.inr (Or.inr ⟨hf, hs, he⟩))⟩
      rw [heq] at he
      exact lt_irrefl _ he

theorem rank_lt_iff (sa sb : Severity) :
    sa.rank < sb.rank ↔ (sa = Severity.Warning ∧ sb = Severity.Error) := by
  cases sa <;> cases sb <;> simp [Severity.rank]

theorem rank_eq_iff (sa sb : Severity) : sa.rank = sb.rank ↔ sa = sb := by
  cases sa <;> cases sb <;> simp [Severity.rank]

theorem key_lt_iff_spec (a b : Diagnostic) :
    a.sortKey < b.sortKey ↔ specSortsBefore a b := by
  unfold Diagnostic.sortKey specSortsBefore
  rw [Prod.Lex.lt_iff]
  cases hA : a.Source.Subject with
  | none =>
    cases hB : b.Source.Subject with
    | none => simp [rank_lt_iff, rank_eq_iff]
    | some rb => simp [rank_lt_iff, rank_eq_iff, WithBot.bot_lt_coe]
  | some ra =>
    cases hB : b.Source.Subject with
    | none => simp [rank_lt_iff, rank_eq_iff, WithBot.not_lt_bot]
    | some rb =>
      simp only [rank_lt_iff, rank_eq_iff, WithBot.coe_lt_coe,
        ← spec_subject_iff, Option.some.injEq, reduceCtorEq, ne_eq,
        not_false_iff, true_and, false_and, exists_and_left, exists_eq_left,
        exists_eq_left']
      tauto


theorem sourceRange_eq_of_fields (ra rb : SourceRange)
    (hf : ra.Filename = rb.Filename) (hs : ra.Start.Byte = rb.Start.Byte)
    (he : ra.End.Byte = rb.End.Byte) : ra = rb := by
  cases ra with
  | mk f s e =>
    cases rb with
    | mk f2 s2 e2 =>
      cases s; cases s2; cases e; cases e2
      simp only at hf hs he
      simp [hf, hs, he]

theorem less_iff_key (a b : Diagnostic) :
    sortDiagnostics.Less a b = true ↔ a.sortKey < b.sortKey := by
  unfold sortDiagnostics.Less Diagnostic.sortKey
  rw [Prod.Lex.lt_iff]
  by_cases hsev : a.Severity = b.Severity
  · rw [if_neg (by simp [hsev])]
    rw [hsev]
    simp only [lt_irrefl, false_or, true_and, eq_self_iff_true]
    cases hA : a.Source.Subject with
    | none =>
      cases hB : b.Source.Subject with
      | none => simp
      | some rb => simp [WithBot.bot_lt_coe]
    | some ra =>
      cases hB : b.Source.Subject with
      | none => simp [WithBot.not_lt_bot]
      | some rb =>
        simp only [Option.isNone_some, ne_eq, not_true_eq_false, if_false,
          WithBot.coe_lt_coe]
        by_cases hr : ra = rb
        · subst hr
          simp [lt_irrefl]
        · rw [if_pos hr]
          rw [subjKey_lt_iff]
          by_cases hf : ra.Filename = rb.Filename
          · rw [if_neg (by simp [hf])]
            by_cases hs : ra.Start.Byte = rb.Start.Byte
            · rw [if_neg (by simp [hs])]
              by_cases he : ra.End.Byte = rb.End.Byte
              · exact absurd (sourceRange_eq_of_fields ra rb hf hs he) hr
              · rw [if_pos he]
                simp [hf, hs, he, lex_irrefl]
            · rw [if_pos hs]
              simp [hf, hs, lex_irrefl]
          · rw [if_pos hf]
            by_cases hc : stringsCount ra.Filename filepathSeparator =
                stringsCount rb.Filename filepathSeparator
            · rw [if_neg (by simp [hc])]
              unfold goStringLt
              rw [listCharLtb_iff]
              simp [hc, hf, lt_irrefl]
            · rw [if_pos hc]
              have hlex : ¬ (stringsCount ra.Filename filepathSeparator =
                  stringsCount rb.Filename filepathSeparator) := hc
              simp [hc, hf, hlex]
  · rw [if_pos hsev]
    cases hsa : a.Severity <;> cases hsb : b.Severity <;>
      rw [hsa, hsb] at hsev <;> simp_all [Severity.rank]

theorem sortLe_iff_not_key (a b : Diagnostic) :
    sortLe a b ↔ ¬ b.sortKey < a.sortKey := by
  unfold sortLe
  rw [Bool.eq_false_iff, Ne, less_iff_key]


/-- Claim C6: `Sort` reorders by the stated precedence — the comparison
in the code agrees with the precedence relation of the spec, every sorted
collection is ordered by it (no later element strictly precedes an earlier
one), elements not distinguished by any criterion keep their relative
order for every input, and the concrete example sorts as stated. -/
theorem sort_ordering :
    (∀ a b : Diagnostic,
      sortDiagnostics.Less a b = true ↔ specSortsBefore a b) ∧
    (∀ ds : Diagnostics,
      (ds.Sort).elems.Pairwise fun a b => ¬ specSortsBefore b a) ∧
    (∀ (ds : Diagnostics) (a b : Diagnostic),
      ¬ specSortsBefore a b → ¬ specSortsBefore b a →
      [a, b].Sublist ds.elems → [a, b].Sublist (ds.Sort).elems) ∧
    (Diagnostics.Sort (some [exDiag1, exDiag2, exDiag3]) =
      some [exDiag2, exDiag3, exDiag1]) := by
  have hLe : ∀ a b : Diagnostic, sortLe a b ↔ ¬ specSortsBefore b a := by
    intro a b
    rw [sortLe_iff_not_key, key_lt_iff_spec]
  refine ⟨?_, ?_, ?_, rfl⟩
  · intro a b
    rw [less_iff_key, key_lt_iff_spec]
  · intro ds
    cases ds with
    | none => simp [Diagnostics.Sort, Diagnostics.elems]
    | some l =>
      letI : IsTotal Diagnostic sortLe := ⟨fun a b => by
        rw [sortLe_iff_not_key, sortLe_iff_not_key]
        by_cases h : b.sortKey < a.sortKey
        · exact Or.inr (lt_asymm h)
        · exact Or.inl h⟩
      letI : IsTrans Diagnostic sortLe := ⟨fun a b c hab hbc => by
        rw [sortLe_iff_not_key] at hab hbc ⊢
        intro hlt
        exact hbc (lt_of_lt_of_le hlt (not_lt.mp hab))⟩
      have hs : (List.insertionSort sortLe l).Sorted sortLe :=
        List.sorted_insertionSort sortLe l
      have : (List.insertionSort sortLe l).Pairwise
          fun a b => ¬ specSortsBefore b a :=
        hs.imp fun hab => (hLe _ _).mp hab
      simpa [Diagnostics.Sort, Diagnostics.elems] using this
  · intro ds a b hab hba hsub
    cases ds with
    | none =>
      rw [show Diagnostics.elems (none : Diagnostics) = [] from rfl] at hsub
      simp at hsub
    | some l =>
      have hle : sortLe a b := (hLe a b).mpr hba
      have := List.pair_sublist_insertionSort hle
        (by simpa [Diagnostics.elems] using hsub)
      simpa [Diagnostics.Sort, Diagnostics.elems] using this

/-- Witness for `sort_ordering`: two indistinguishable warnings keep their
relative order around an error item. -/
theorem sort_ordering_witness :
    [exDiag2, exDiag2].Sublist
      (Diagnostics.Sort (some [exDiag1, exDiag2, exDiag2])).elems :=
  sort_ordering.2.2.1 (some [exDiag1, exDiag2, exDiag2]) exDiag2 exDiag2
    (by simp [specSortsBefore, exDiag2, Diagnostic.Severity, Diagnostic.Source])
    (by simp [specSortsBefore, exDiag2, Diagnostic.Severity, Diagnostic.Source])
    ((List.Sublist.refl [exDiag2, exDiag2]).cons exDiag1)

/-- Claim C10: `Sort` produces a permutation of the original elements —
the length is unchanged and every item keeps its multiplicity; nothing is
inserted, removed, deduplicated or modified. -/
theorem sort_permutation (ds : Diagnostics) :
    (ds.Sort).elems.Perm ds.elems ∧
    (ds.Sort).elems.length = ds.elems.length := by
  cases ds with
  | none => simp [Diagnostics.Sort, Diagnostics.elems]
  | some l =>
    have hp : (List.insertionSort sortLe l).Perm l :=
      List.perm_insertionSort sortLe l
    constructor
    · simpa [Diagnostics.Sort, Diagnostics.elems] using hp
    · simp [Diagnostics.Sort, Diagnostics.elems, hp.length_eq]

end Tbdiags
